import Mathlib

/-!
Shallow embedding of the news-aggregation core of the `infohub` repository
(`internal/domain/news.go`, `internal/aggregator`, `internal/storage`,
`internal/cache`, `internal/collector`, `internal/server/v1/handlers.go`),
together with proofs of the behavioural properties stated in the
specification.

Modelling conventions:
* Go `time.Time` timestamps are embedded as `Int` (Unix-style instants);
  `t1.Before(t2)` is `t1 < t2`.
* Go slices of `News` are Lean `List News`; slicing `nl[:k]` with a
  non-negative in-range bound is `List.take`.
* A Go runtime panic (negative slice bound) is represented by `Option.none`;
  functions that can panic return `Option`.
* The single-file JSON repository is modelled as `Option NewsList`: `none`
  is the missing file, `some l` is a file whose JSON decodes to `l`
  (the JSON round trip itself is treated as the identity).
* Library calls performed by the collector (HTTP transport, JSON decoding,
  RFC3339 parsing) are abstracted to their observable results: an HTTP
  exchange is a `FetchResult`, and RFC3339 parsing is a parameter
  `parseRFC3339 : String → Option Int`.
-/

namespace Infohub

/-- Go type `domain.News` from `internal/domain/news.go`: one aggregated item. -/
structure News where
  id : String
  title : String
  description : String
  url : String
  source : String
  publishedAt : Int
deriving DecidableEq

/-- Go type `domain.NewsList`. -/
abbrev NewsList := List News

/-- The descending-by-date order used by the sort: the left element is at
least as recent as the right one. -/
def byDateDesc (x y : News) : Prop := y.publishedAt ≤ x.publishedAt

instance : DecidableRel byDateDesc := fun x y =>
  inferInstanceAs (Decidable (y.publishedAt ≤ x.publishedAt))

/-- One run of the inner loop of `NewsList.SortByDate` (news.go:22-27) with
`fuel` remaining comparisons: compare the current adjacent pair, swap when
the left item was published strictly before the right one, and carry the
smaller element into the next comparison. -/
def bubble : Nat → NewsList → NewsList
  | _, [] => []
  | 0, l => l
  | _ + 1, [a] => [a]
  | fuel + 1, a :: b :: rest =>
    if a.publishedAt < b.publishedAt then b :: bubble fuel (a :: rest)
    else a :: bubble fuel (b :: rest)

/-- The outer loop of `NewsList.SortByDate`: `sortPasses k l` performs the
passes with `k, k-1, ..., 1` comparisons (Go pass `i` performs
`len(nl)-i-1` comparisons). -/
def sortPasses : Nat → NewsList → NewsList
  | 0, l => l
  | k + 1, l => sortPasses k (bubble (k + 1) l)

/-- Go method `NewsList.SortByDate` (news.go:19-30): bubble sort by `PublishedAt`
descending, `len(nl)-1` passes, pass `i` making `len(nl)-i-1` comparisons. -/
def NewsList.SortByDate (nl : NewsList) : NewsList :=
  sortPasses (nl.length - 1) nl

/-- Go method `NewsList.LimitTo` (news.go:33-38): return the whole list if it has at
most `limit` elements, otherwise the slice `nl[:limit]`; a negative `limit`
reaches the slice expression and panics (`none`). -/
def NewsList.LimitTo (nl : NewsList) (limit : Int) : Option NewsList :=
  if (nl.length : Int) ≤ limit then some nl
  else if limit < 0 then none
  else some (nl.take limit.toNat)

/-- The ids of a list of news items, in list order. -/
def idsOf (nl : NewsList) : List String := nl.map News.id

namespace Aggregator

/-- The loop body of `Aggregator.removeDuplicates` (aggregator.go): `seen`
is the set of ids already encountered (Go `map[string]bool`, modelled by
membership in a list); an item is kept exactly when its id is unseen. -/
def removeDupsAux : List String → NewsList → NewsList
  | _, [] => []
  | seen, n :: rest =>
    if n.id ∈ seen then removeDupsAux seen rest
    else n :: removeDupsAux (n.id :: seen) rest

/-- Go method `Aggregator.removeDuplicates`: drop every item whose id occurred
earlier in the list. -/
def removeDuplicates (news : NewsList) : NewsList :=
  removeDupsAux [] news

/-- Go method `Aggregator.addNews`: append the incoming batch, deduplicate by id,
sort by date descending, and truncate to the first 1000 entries. (The
subsequent best-effort repository write does not affect the in-memory
list and is modelled by `SaveToRepository`.) -/
def addNews (news newNews : NewsList) : NewsList :=
  let merged := news ++ newNews
  let deduped := removeDuplicates merged
  let sorted := NewsList.SortByDate deduped
  if sorted.length > 1000 then sorted.take 1000 else sorted

/-- Go method `Aggregator.GetLatestNews`: `a.news.LimitTo(limit)` under a read lock. -/
def GetLatestNews (news : NewsList) (limit : Int) : Option NewsList :=
  news.LimitTo limit

end Aggregator

namespace FileCache

/-- Go method `storage.FileCache.SaveNews`: marshal the list and overwrite the file
wholesale; the new file contents decode back to the list itself. -/
def SaveNews (news : NewsList) : Option NewsList :=
  some news

/-- Go method `storage.FileCache.GetLatestNews`: a missing file yields an empty list
and no error; otherwise decode the file and apply `LimitTo limit`. -/
def GetLatestNews (file : Option NewsList) (limit : Int) : Option NewsList :=
  match file with
  | none => some []
  | some news => news.LimitTo limit

end FileCache

namespace Aggregator

/-- Go method `Aggregator.SaveToRepository`: write the current list through the
repository; returns the resulting file contents. -/
def SaveToRepository (news : NewsList) : Option NewsList :=
  FileCache.SaveNews news

/-- Go method `Aggregator.LoadFromRepository` on a fresh aggregator backed by the
given file: fetch `GetLatestNews(1000)` from the repository and store it
sorted by date; `none` propagates a repository failure (here: the panic
case, which `limit = 1000` never triggers). -/
def LoadFromRepository (file : Option NewsList) : Option NewsList :=
  (FileCache.GetLatestNews file 1000).map NewsList.SortByDate

/-- The states the aggregator's in-memory list can be in: empty at process
start, after a merge, or after seeding from a repository file. -/
inductive Reachable : NewsList → Prop
  | start : Reachable []
  | merge {s : NewsList} (b : NewsList) : Reachable s → Reachable (addNews s b)
  | load {file : Option NewsList} {s : NewsList} :
      LoadFromRepository file = some s → Reachable s

end Aggregator

/-- Go function `cache.NewsCacheKey`: the cache key for a given read limit. -/
def NewsCacheKey (limit : Int) : String :=
  "news:latest:" ++ toString limit

/-- A cache backend (`cache.Cache`): a key/value map from keys to stored
news lists (TTL expiry is not modelled; `Delete` and a TTL expiry both
surface as a miss). -/
def CacheMap := String → Option NewsList

/-- Go method `Cache.Set` as used by the cached repository. -/
def CacheMap.set (c : CacheMap) (key : String) (v : NewsList) : CacheMap :=
  fun k => if k = key then some v else c k

/-- Go method `Cache.Delete`. -/
def CacheMap.del (c : CacheMap) (key : String) : CacheMap :=
  fun k => if k = key then none else c k

/-- The state seen by `cache.CachedNewsRepository`: the cache contents and
the backing repository file. -/
structure CachedState where
  cache : CacheMap
  repoFile : Option NewsList

namespace CachedNewsRepository

/-- Go method `CachedNewsRepository.GetLatestNews` (cache.go:286-309): return the
cached entry on a hit; on a miss delegate to the backing repository, store
the result under the limit's key, and return it. -/
def GetLatestNews (st : CachedState) (limit : Int) : Option (NewsList × CachedState) :=
  let key := NewsCacheKey limit
  match st.cache key with
  | some cached => some (cached, st)
  | none =>
    (FileCache.GetLatestNews st.repoFile limit).map fun news =>
      (news, { st with cache := st.cache.set key news })

/-- Go method `CachedNewsRepository.SaveNews` (cache.go:312-336): write through to
the backing repository, then invalidate the well-known limit keys
10/50/100/500/1000. -/
def SaveNews (st : CachedState) (news : NewsList) : CachedState :=
  { cache :=
      [NewsCacheKey 10, NewsCacheKey 50, NewsCacheKey 100,
       NewsCacheKey 500, NewsCacheKey 1000].foldl CacheMap.del st.cache
    repoFile := FileCache.SaveNews news }

end CachedNewsRepository

/-- Go type `domain.Source`. -/
structure Source where
  name : String
  url : String
deriving DecidableEq

/-- One article of the upstream JSON payload
(`{"articles":[{title,description,url,publishedAt}, ...]}`). -/
structure Article where
  title : String
  description : String
  url : String
  publishedAt : String
deriving DecidableEq

/-- The observable outcome of decoding a response body as the expected
JSON shape. -/
inductive BodyResult where
  | malformed (msg : String)
  | decoded (articles : List Article)
deriving DecidableEq

/-- The observable outcome of the HTTP exchange with a source: a
transport-level failure, or a response with a status code and a body. -/
inductive FetchResult where
  | transportError (msg : String)
  | response (status : Nat) (body : BodyResult)
deriving DecidableEq

namespace Collector

/-- The item-construction loop of `Collector.CollectFromSource`
(collector.go): article `i` becomes an item with the synthesized id
`name_unixtime_index`, the source's name, and the RFC3339-parsed
`publishedAt`, defaulting to the current time when parsing fails.
`parseRFC3339` abstracts `time.Parse(time.RFC3339, ·)` and `now` the
collection-time `time.Now()`. -/
def buildNews (parseRFC3339 : String → Option Int) (src : Source) (now : Int)
    (articles : List Article) : NewsList :=
  articles.enum.map fun p =>
    { id := src.name ++ "_" ++ toString now ++ "_" ++ toString p.1
      title := p.2.title
      description := p.2.description
      url := p.2.url
      source := src.name
      publishedAt := (parseRFC3339 p.2.publishedAt).getD now }

/-- Go method `Collector.CollectFromSource`: fail on a transport error; fail with
`"HTTP <code> from <url>"` on any status other than 200; fail on a body
that does not decode; otherwise build the batch. -/
def CollectFromSource (parseRFC3339 : String → Option Int) (src : Source)
    (now : Int) (r : FetchResult) : Except String NewsList :=
  match r with
  | .transportError msg => .error msg
  | .response status body =>
    if status ≠ 200 then
      .error ("HTTP " ++ toString status ++ " from " ++ src.url)
    else
      match body with
      | .malformed msg => .error msg
      | .decoded articles => .ok (buildNews parseRFC3339 src now articles)

/-- What a per-source task of `Collector.collectFromAllSources` delivers
on the channels (ignoring the cancellation races): a failing collection
sends the error wrapped with the source name on the error channel, a
non-empty batch is sent whole on the news channel, and an empty batch is
dropped silently. -/
inductive TaskOutcome where
  | sentNews (batch : NewsList)
  | sentError (msg : String)
  | silent
deriving DecidableEq

/-- The body of one per-source goroutine in `collectFromAllSources`. -/
def sourceTask (parseRFC3339 : String → Option Int) (src : Source)
    (now : Int) (r : FetchResult) : TaskOutcome :=
  match CollectFromSource parseRFC3339 src now r with
  | .error e => .sentError ("error collecting from " ++ src.name ++ ": " ++ e)
  | .ok news => if news.length > 0 then .sentNews news else .silent

end Collector

namespace Handlers

/-- The `limit` query parameter of a `/api/v1/news` request as the handler
observes it: absent, or present with the result of `strconv.Atoi`
(`none` when the string is not an integer). -/
inductive LimitParam where
  | absent
  | present (parsed : Option Int)
deriving DecidableEq

/-- What `Handlers.GetNews` (handlers.go:65-91) does with a GET request:
either answer 400 without consulting the news provider, or call
`GetLatestNews` with the given limit and respond 200. -/
inductive GetNewsOutcome where
  | badRequest (msg : String) (code : Nat)
  | respond (limit : Int)
deriving DecidableEq

/-- The limit-validation logic of `Handlers.GetNews`: default 100 when the
parameter is absent; use a parsed value only when `0 < v ≤ 1000`;
otherwise answer 400 and return before calling the provider. -/
def GetNews (p : LimitParam) : GetNewsOutcome :=
  match p with
  | .absent => .respond 100
  | .present parsed =>
    match parsed with
    | some v =>
      if 0 < v ∧ v ≤ 1000 then .respond v
      else .badRequest "Invalid limit parameter. Must be between 1 and 1000" 400
    | none => .badRequest "Invalid limit parameter. Must be between 1 and 1000" 400

end Handlers

/-- The specification's description of deduplication, stated in its own
words for comparison with `Aggregator.removeDuplicates`: "first occurrence
in list order wins; later duplicates are dropped". -/
def firstOccurrences (l : NewsList) : NewsList :=
  match l with
  | [] => []
  | n :: rest => n :: firstOccurrences (rest.filter fun m => m.id ≠ n.id)
termination_by l.length
decreasing_by
  simp only [List.length_cons]
  exact Nat.lt_succ_of_le (List.length_filter_le _ _)

/-- Distinct ids for the concrete merge scenarios below. -/
def mkId (n : Nat) : String := String.mk (List.replicate n 'a')

/-- A concrete news item with a numbered id and a given publication date. -/
def cxItem (idn : Nat) (d : Int) : News :=
  { id := mkId idn, title := "", description := "", url := "", source := ""
    publishedAt := d }

/-- The stale item: the oldest entry of the concrete aggregator state, with
id `mkId 0`. -/
def cxY : News := cxItem 0 0

/-- A concrete aggregator state of exactly 1000 items with pairwise
distinct ids: the stale item `cxY` plus 999 fillers. -/
def cxS : NewsList := cxY :: (List.range 999).map fun i => cxItem (i + 1) 2

/-- A fresh item with a brand-new id and the most recent date. -/
def cxF : News := cxItem 1001 5000

/-- A recent item that reuses the stale item's id `mkId 0`. -/
def cxE : News := cxItem 0 4000

/-- The concrete incoming batch: one genuinely new item and one item whose
id collides with the stale entry of `cxS`. -/
def cxB : NewsList := [cxF, cxE]

/-- A concrete source for collector scenarios. -/
def cxSrc : Source := { name := "TechNews", url := "http://example.com/api/news" }

/-- A concrete well-formed upstream article. -/
def cxArticle : Article :=
  { title := "t", description := "d", url := "http://example.com/a"
    publishedAt := "2024-01-01T12:00:00Z" }

/-- The invariant of the outer sort loop: everything beyond position `k`
is already sorted and dominated by the first `k` elements. -/
def settled (k : Nat) (l : NewsList) : Prop :=
  (l.drop k).Pairwise byDateDesc ∧
    ∀ x ∈ l.take k, ∀ y ∈ l.drop k, y.publishedAt ≤ x.publishedAt

/-! ### Lemmas about the bubble-sort passes -/

theorem bubble_nil (f : Nat) : bubble f [] = [] := by
  cases f <;> rfl

theorem bubble_zero (l : NewsList) : bubble 0 l = l := by
  cases l <;> rfl

theorem bubble_singleton (f : Nat) (a : News) : bubble f [a] = [a] := by
  cases f <;> rfl

theorem bubble_cons_cons (f : Nat) (a b : News) (rest : NewsList) :
    bubble (f + 1) (a :: b :: rest) =
      if a.publishedAt < b.publishedAt then b :: bubble f (a :: rest)
      else a :: bubble f (b :: rest) := rfl

theorem bubble_perm (f : Nat) (l : NewsList) : List.Perm (bubble f l) l := by
  induction f generalizing l with
  | zero => rw [bubble_zero]
  | succ f ih =>
    match l with
    | [] => rw [bubble_nil]
    | [a] => rw [bubble_singleton]
    | a :: b :: rest =>
      rw [bubble_cons_cons]
      by_cases h : a.publishedAt < b.publishedAt
      · rw [if_pos h]
        exact ((ih (a :: rest)).cons b).trans (List.Perm.swap a b rest)
      · rw [if_neg h]
        exact (ih (b :: rest)).cons a

theorem bubble_length (f : Nat) (l : NewsList) :
    (bubble f l).length = l.length :=
  (bubble_perm f l).length_eq

theorem bubble_split (f : Nat) (l : NewsList) :
    bubble f l = bubble f (l.take (f + 1)) ++ l.drop (f + 1) := by
  induction f generalizing l with
  | zero =>
    rw [bubble_zero, bubble_zero, List.take_append_drop]
  | succ f ih =>
    match l with
    | [] => simp [bubble_nil]
    | [a] => simp [bubble_singleton]
    | a :: b :: rest =>
      have htake : (a :: b :: rest).take (f + 1 + 1) = a :: b :: rest.take f := rfl
      have hdrop : (a :: b :: rest).drop (f + 1 + 1) = rest.drop f := rfl
      rw [htake, hdrop, bubble_cons_cons, bubble_cons_cons]
      by_cases h : a.publishedAt < b.publishedAt
      · rw [if_pos h, if_pos h, List.cons_append]
        congr 1
        have := ih (a :: rest)
        rwa [List.take_succ_cons, List.drop_succ_cons] at this
      · rw [if_neg h, if_neg h, List.cons_append]
        congr 1
        have := ih (b :: rest)
        rwa [List.take_succ_cons, List.drop_succ_cons] at this

theorem bubble_min (f : Nat) (a : News) (P : NewsList) (hf : P.length ≤ f) :
    ∃ M z, bubble f (a :: P) = M ++ [z] ∧ M.length = P.length ∧
      ∀ x ∈ a :: P, z.publishedAt ≤ x.publishedAt := by
  induction f generalizing a P with
  | zero =>
    have hP : P = [] := List.length_eq_zero.mp (Nat.le_zero.mp hf)
    subst hP
    exact ⟨[], a, rfl, rfl, by simp⟩
  | succ f ih =>
    match P with
    | [] =>
      exact ⟨[], a, bubble_singleton _ a, rfl, by simp⟩
    | b :: rest =>
      have hrest : rest.length ≤ f := Nat.le_of_succ_le_succ hf
      rw [bubble_cons_cons]
      by_cases h : a.publishedAt < b.publishedAt
      · obtain ⟨M, z, he, hlen, hmin⟩ := ih a rest hrest
        refine ⟨b :: M, z, ?_, ?_, ?_⟩
        · rw [if_pos h, he, List.cons_append]
        · simp [hlen]
        · intro x hx
          rcases List.mem_cons.mp hx with hxa | hx2
          · subst hxa; exact hmin x (List.mem_cons_self _ _)
          rcases List.mem_cons.mp hx2 with hxb | hxr
          · subst hxb
            exact le_trans (hmin a (List.mem_cons_self _ _)) (le_of_lt h)
          · exact hmin x (List.mem_cons_of_mem _ hxr)
      · obtain ⟨M, z, he, hlen, hmin⟩ := ih b rest hrest
        refine ⟨a :: M, z, ?_, ?_, ?_⟩
        · rw [if_neg h, he, List.cons_append]
        · simp [hlen]
        · intro x hx
          rcases List.mem_cons.mp hx with hxa | hx2
          · subst hxa
            exact le_trans (hmin b (List.mem_cons_self _ _)) (not_lt.mp h)
          · exact hmin x hx2

theorem bubble_of_pairwise (f : Nat) (l : NewsList)
    (h : l.Pairwise byDateDesc) : bubble f l = l := by
  induction f generalizing l with
  | zero => exact bubble_zero l
  | succ f ih =>
    match l with
    | [] => rw [bubble_nil]
    | [a] => rw [bubble_singleton]
    | a :: b :: rest =>
      have hab : byDateDesc a b := (List.pairwise_cons.mp h).1 b (List.mem_cons_self _ _)
      have hnot : ¬ a.publishedAt < b.publishedAt := not_lt.mpr hab
      rw [bubble_cons_cons, if_neg hnot, ih (b :: rest) (List.pairwise_cons.mp h).2]

theorem settled_of_length_le (k : Nat) (l : NewsList) (h : l.length ≤ k) :
    settled k l := by
  constructor
  · rw [List.drop_eq_nil_of_le h]
    exact List.Pairwise.nil
  · intro x _ y hy
    rw [List.drop_eq_nil_of_le h] at hy
    cases hy

theorem settled_succ_bubble (k : Nat) (l : NewsList) (h : settled (k + 2) l) :
    settled (k + 1) (bubble (k + 1) l) := by
  obtain ⟨hsort, hdom⟩ := h
  by_cases hlen : l.length ≤ k + 1
  · exact settled_of_length_le _ _ (by rw [bubble_length]; exact hlen)
  · push_neg at hlen
    have hsplit := bubble_split (k + 1) l
    have hPlen : (l.take (k + 2)).length = k + 2 := by
      rw [List.length_take]
      omega
    rcases hP : l.take (k + 2) with _ | ⟨a, P0⟩
    · rw [hP] at hPlen
      simp at hPlen
    · have hP0len : P0.length = k + 1 := by
        rw [hP] at hPlen
        simpa using hPlen
      obtain ⟨M, z, he, hMlen, hmin⟩ := bubble_min (k + 1) a P0 (le_of_eq hP0len)
      rw [hP, he] at hsplit
      have hassoc : (M ++ [z]) ++ l.drop (k + 2) = M ++ (z :: l.drop (k + 2)) := by
        simp
      rw [hassoc] at hsplit
      have hMk : M.length = k + 1 := by rw [hMlen, hP0len]
      have hperm : List.Perm (M ++ [z]) (a :: P0) := he ▸ bubble_perm (k + 1) (a :: P0)
      have hmem : ∀ x ∈ M ++ [z], x ∈ l.take (k + 2) := by
        intro x hx
        rw [hP]
        exact hperm.mem_iff.mp hx
      have htake : (bubble (k + 1) l).take (k + 1) = M := by
        rw [hsplit, ← hMk]
        exact List.take_left _ _
      have hdrop : (bubble (k + 1) l).drop (k + 1) = z :: l.drop (k + 2) := by
        rw [hsplit, ← hMk]
        exact List.drop_left _ _
      constructor
      · rw [hdrop]
        apply List.pairwise_cons.mpr
        refine ⟨fun y hy => ?_, hsort⟩
        exact hdom z (hmem z (by simp)) y hy
      · rw [htake, hdrop]
        intro x hx y hy
        rcases List.mem_cons.mp hy with hyz | hyQ
        · subst hyz
          have hxP : x ∈ a :: P0 := hperm.mem_iff.mp (List.mem_append_left _ hx)
          exact hmin x hxP
        · exact hdom x (hmem x (List.mem_append_left _ hx)) y hyQ

theorem sortPasses_pairwise (k : Nat) : ∀ l : NewsList, settled (k + 1) l →
    (sortPasses k l).Pairwise byDateDesc := by
  induction k with
  | zero =>
    intro l h
    obtain ⟨hsort, hdom⟩ := h
    match l with
    | [] => exact List.Pairwise.nil
    | a :: rest =>
      show (a :: rest).Pairwise byDateDesc
      refine List.pairwise_cons.mpr ⟨fun y hy => ?_, ?_⟩
      · exact hdom a (by simp) y (by simpa using hy)
      · simpa using hsort
  | succ k ih =>
    intro l h
    exact ih (bubble (k + 1) l) (settled_succ_bubble k l h)

theorem SortByDate_pairwise (l : NewsList) : l.SortByDate.Pairwise byDateDesc := by
  apply sortPasses_pairwise
  exact settled_of_length_le _ _ (by omega)

theorem sortPasses_perm (k : Nat) : ∀ l : NewsList, List.Perm (sortPasses k l) l := by
  induction k with
  | zero => intro l; exact List.Perm.refl l
  | succ k ih =>
    intro l
    exact (ih (bubble (k + 1) l)).trans (bubble_perm (k + 1) l)

theorem SortByDate_perm (l : NewsList) : List.Perm l.SortByDate l :=
  sortPasses_perm _ l

theorem SortByDate_length (l : NewsList) : l.SortByDate.length = l.length :=
  (SortByDate_perm l).length_eq

theorem sortPasses_of_pairwise (k : Nat) :
    ∀ l : NewsList, l.Pairwise byDateDesc → sortPasses k l = l := by
  induction k with
  | zero => intro l _; rfl
  | succ k ih =>
    intro l h
    show sortPasses k (bubble (k + 1) l) = l
    rw [bubble_of_pairwise _ _ h]
    exact ih l h

theorem SortByDate_of_pairwise (l : NewsList) (h : l.Pairwise byDateDesc) :
    l.SortByDate = l :=
  sortPasses_of_pairwise _ l h

/-! ### Lemmas about deduplication -/

theorem idsOf_nil : idsOf [] = [] := rfl

theorem idsOf_cons (n : News) (l : NewsList) : idsOf (n :: l) = n.id :: idsOf l := rfl

theorem idsOf_append (l₁ l₂ : NewsList) : idsOf (l₁ ++ l₂) = idsOf l₁ ++ idsOf l₂ :=
  List.map_append _ _ _

theorem removeDupsAux_sublist (seen : List String) (l : NewsList) :
    List.Sublist (Aggregator.removeDupsAux seen l) l := by
  induction l generalizing seen with
  | nil => exact List.Sublist.refl []
  | cons n rest ih =>
    rw [Aggregator.removeDupsAux]
    by_cases h : n.id ∈ seen
    · rw [if_pos h]
      exact (ih seen).cons n
    · rw [if_neg h]
      exact (ih (n.id :: seen)).cons₂ n

theorem mem_idsOf_removeDupsAux (seen : List String) (l : NewsList) (x : String) :
    x ∈ idsOf (Aggregator.removeDupsAux seen l) ↔ x ∈ idsOf l ∧ x ∉ seen := by
  induction l generalizing seen with
  | nil => simp [Aggregator.removeDupsAux, idsOf_nil]
  | cons n rest ih =>
    rw [Aggregator.removeDupsAux]
    by_cases h : n.id ∈ seen
    · rw [if_pos h, ih seen, idsOf_cons, List.mem_cons]
      constructor
      · exact fun ⟨h1, h2⟩ => ⟨Or.inr h1, h2⟩
      · rintro ⟨h1 | h1, h2⟩
        · exact absurd (h1 ▸ h) h2
        · exact ⟨h1, h2⟩
    · rw [if_neg h, idsOf_cons, List.mem_cons, ih (n.id :: seen), idsOf_cons,
        List.mem_cons, List.mem_cons]
      by_cases hx : x = n.id
      · subst hx
        simp [h]
      · simp [hx]

theorem nodup_idsOf_removeDupsAux (seen : List String) (l : NewsList) :
    (idsOf (Aggregator.removeDupsAux seen l)).Nodup := by
  induction l generalizing seen with
  | nil => exact List.nodup_nil
  | cons n rest ih =>
    rw [Aggregator.removeDupsAux]
    by_cases h : n.id ∈ seen
    · rw [if_pos h]
      exact ih seen
    · rw [if_neg h, idsOf_cons]
      refine List.nodup_cons.mpr ⟨?_, ih (n.id :: seen)⟩
      intro hmem
      exact ((mem_idsOf_removeDupsAux _ _ _).mp hmem).2 (List.mem_cons_self _ _)

theorem removeDupsAux_of_nodup (seen : List String) (l : NewsList)
    (hseen : ∀ x ∈ l, x.id ∉ seen) (hnd : (idsOf l).Nodup) :
    Aggregator.removeDupsAux seen l = l := by
  induction l generalizing seen with
  | nil => rfl
  | cons n rest ih =>
    rw [Aggregator.removeDupsAux, if_neg (hseen n (List.mem_cons_self _ _))]
    congr 1
    apply ih
    · intro x hx
      rw [idsOf_cons, List.nodup_cons] at hnd
      intro hmem
      rcases List.mem_cons.mp hmem with heq | hseen2
      · exact hnd.1 (heq ▸ List.mem_map_of_mem News.id hx)
      · exact hseen x (List.mem_cons_of_mem _ hx) hseen2
    · rw [idsOf_cons, List.nodup_cons] at hnd
      exact hnd.2

theorem removeDupsAux_of_all_seen (seen : List String) (l : NewsList)
    (h : ∀ x ∈ l, x.id ∈ seen) : Aggregator.removeDupsAux seen l = [] := by
  induction l with
  | nil => rfl
  | cons n rest ih =>
    rw [Aggregator.removeDupsAux, if_pos (h n (List.mem_cons_self _ _))]
    exact ih fun x hx => h x (List.mem_cons_of_mem _ hx)

theorem removeDupsAux_congr (seen₁ seen₂ : List String) (l : NewsList)
    (h : ∀ s, s ∈ seen₁ ↔ s ∈ seen₂) :
    Aggregator.removeDupsAux seen₁ l = Aggregator.removeDupsAux seen₂ l := by
  induction l generalizing seen₁ seen₂ with
  | nil => rfl
  | cons n rest ih =>
    rw [Aggregator.removeDupsAux, Aggregator.removeDupsAux]
    by_cases hn : n.id ∈ seen₁
    · rw [if_pos hn, if_pos ((h n.id).mp hn)]
      exact ih seen₁ seen₂ h
    · rw [if_neg hn, if_neg (fun hc => hn ((h n.id).mpr hc))]
      congr 1
      apply ih
      intro s
      rw [List.mem_cons, List.mem_cons, h s]

theorem removeDupsAux_append (seen : List String) (l₁ l₂ : NewsList) :
    Aggregator.removeDupsAux seen (l₁ ++ l₂) =
      Aggregator.removeDupsAux seen l₁ ++
        Aggregator.removeDupsAux (idsOf l₁ ++ seen) l₂ := by
  induction l₁ generalizing seen with
  | nil => rw [List.nil_append, idsOf_nil, List.nil_append, Aggregator.removeDupsAux,
      List.nil_append]
  | cons n rest ih =>
    rw [List.cons_append, Aggregator.removeDupsAux, Aggregator.removeDupsAux]
    by_cases h : n.id ∈ seen
    · rw [if_pos h, if_pos h, ih seen]
      congr 1
      apply removeDupsAux_congr
      intro s
      rw [idsOf_cons]
      simp only [List.mem_append, List.mem_cons]
      constructor
      · tauto
      · rintro ((hs | hs) | hs) <;> try tauto
        subst hs
        tauto
    · rw [if_neg h, if_neg h, ih (n.id :: seen), List.cons_append]
      congr 2
      apply removeDupsAux_congr
      intro s
      rw [idsOf_cons]
      simp only [List.mem_append, List.mem_cons]
      tauto

theorem removeDuplicates_of_nodup (l : NewsList) (hnd : (idsOf l).Nodup) :
    Aggregator.removeDuplicates l = l :=
  removeDupsAux_of_nodup [] l (fun x _ => List.not_mem_nil x.id) hnd

theorem mem_idsOf_removeDuplicates (l : NewsList) (x : String) :
    x ∈ idsOf (Aggregator.removeDuplicates l) ↔ x ∈ idsOf l := by
  rw [Aggregator.removeDuplicates, mem_idsOf_removeDupsAux]
  simp

theorem nodup_idsOf_removeDuplicates (l : NewsList) :
    (idsOf (Aggregator.removeDuplicates l)).Nodup :=
  nodup_idsOf_removeDupsAux [] l

theorem removeDuplicates_append_of_subset (L b : NewsList)
    (hnd : (idsOf L).Nodup) (hsub : ∀ x ∈ b, x.id ∈ idsOf L) :
    Aggregator.removeDuplicates (L ++ b) = L := by
  rw [Aggregator.removeDuplicates, removeDupsAux_append,
    removeDupsAux_of_nodup [] L (fun x _ => List.not_mem_nil x.id) hnd,
    removeDupsAux_of_all_seen _ b
      (fun x hx => List.mem_append.mpr (Or.inl (hsub x hx))),
    List.append_nil]

theorem removeDupsAux_eq_firstOccurrences (l : NewsList) :
    ∀ seen : List String, Aggregator.removeDupsAux seen l =
      firstOccurrences (l.filter fun m => decide (m.id ∉ seen)) := by
  induction l with
  | nil => intro seen; simp [Aggregator.removeDupsAux, firstOccurrences]
  | cons n rest ih =>
    intro seen
    rw [Aggregator.removeDupsAux]
    by_cases h : n.id ∈ seen
    · rw [if_pos h, List.filter_cons_of_neg (by simpa using h)]
      exact ih seen
    · rw [if_neg h, List.filter_cons_of_pos (by simpa using h), firstOccurrences,
        ih (n.id :: seen), List.filter_filter]
      congr 2
      apply List.filter_congr
      intro m _
      by_cases h1 : m.id ∈ seen <;> by_cases h2 : m.id = n.id <;>
        simp [h1, h2, List.mem_cons]

theorem removeDuplicates_eq_firstOccurrences (l : NewsList) :
    Aggregator.removeDuplicates l = firstOccurrences l := by
  rw [Aggregator.removeDuplicates, removeDupsAux_eq_firstOccurrences]
  congr 1
  apply List.filter_eq_self.mpr
  intro a _
  simp

/-! ### Lemmas about the merge operation -/

theorem addNews_pairwise (s b : NewsList) :
    (Aggregator.addNews s b).Pairwise byDateDesc := by
  rw [Aggregator.addNews]
  split
  · exact (SortByDate_pairwise _).sublist (List.take_sublist _ _)
  · exact SortByDate_pairwise _

theorem addNews_length_le (s b : NewsList) :
    (Aggregator.addNews s b).length ≤ 1000 := by
  rw [Aggregator.addNews]
  split
  · rw [List.length_take]
    exact Nat.min_le_left _ _
  · omega

theorem addNews_of_no_overflow (s b : NewsList)
    (h : (Aggregator.removeDuplicates (s ++ b)).length ≤ 1000) :
    Aggregator.addNews s b = (Aggregator.removeDuplicates (s ++ b)).SortByDate := by
  rw [Aggregator.addNews]
  split
  · next h2 =>
    rw [SortByDate_length] at h2
    omega
  · rfl

theorem addNews_of_overflow (s b : NewsList)
    (h : 1000 < (Aggregator.removeDuplicates (s ++ b)).length) :
    Aggregator.addNews s b =
      ((Aggregator.removeDuplicates (s ++ b)).SortByDate).take 1000 := by
  rw [Aggregator.addNews]
  split
  · rfl
  · next h2 =>
    rw [SortByDate_length] at h2
    omega

/-! ### Position of an item in a sorted list, by counting -/

theorem not_mem_take_of_le_countP (M : NewsList) (hs : M.Pairwise byDateDesc)
    (z : News) (k : Nat)
    (hc : k ≤ M.countP fun x => decide (z.publishedAt < x.publishedAt)) :
    z ∉ M.take k := by
  induction M generalizing k with
  | nil => simp
  | cons a M2 ih =>
    match k with
    | 0 => simp
    | k + 1 =>
      rw [List.take_succ_cons]
      intro hmem
      rcases List.mem_cons.mp hmem with hza | hz2
      · have hzero : ((a :: M2).countP fun x =>
            decide (z.publishedAt < x.publishedAt)) = 0 := by
          apply List.countP_eq_zero.mpr
          intro x hx
          simp only [decide_eq_true_eq, not_lt]
          rcases List.mem_cons.mp hx with hxa | hx2
          · rw [hxa, hza]
          · rw [hza]
            exact (List.pairwise_cons.mp hs).1 x hx2
        omega
      · have htail : k ≤ M2.countP fun x => decide (z.publishedAt < x.publishedAt) := by
          rw [List.countP_cons] at hc
          split at hc <;> omega
        exact ih (List.pairwise_cons.mp hs).2 k htail hz2

theorem mem_take_of_countP_le (M : NewsList) (hs : M.Pairwise byDateDesc)
    (z : News) (k : Nat) (hz : z ∈ M)
    (hc : (M.countP fun x => decide (z.publishedAt ≤ x.publishedAt)) ≤ k) :
    z ∈ M.take k := by
  induction M generalizing k with
  | nil => cases hz
  | cons a M2 ih =>
    have hcount : ((a :: M2).countP fun x =>
        decide (z.publishedAt ≤ x.publishedAt)) =
        (M2.countP fun x => decide (z.publishedAt ≤ x.publishedAt)) + 1 := by
      rw [List.countP_cons]
      have haz : z.publishedAt ≤ a.publishedAt := by
        rcases List.mem_cons.mp hz with hza | hz2
        · exact hza ▸ le_refl _
        · exact (List.pairwise_cons.mp hs).1 z hz2
      simp [haz]
    match k with
    | 0 => omega
    | k + 1 =>
      rw [List.take_succ_cons]
      rcases List.mem_cons.mp hz with hza | hz2
      · exact hza ▸ List.mem_cons_self _ _
      · apply List.mem_cons_of_mem
        apply ih (List.pairwise_cons.mp hs).2 k hz2
        omega

/-! ### Further helper lemmas for the claims -/

theorem foldl_addNews_length_le (bs : List NewsList) :
    ∀ init : NewsList, init.length ≤ 1000 →
      (bs.foldl Aggregator.addNews init).length ≤ 1000 := by
  induction bs with
  | nil => intro init h; exact h
  | cons b bs ih =>
    intro init _
    exact ih (Aggregator.addNews init b) (addNews_length_le init b)

theorem nodup_idsOf_addNews (s b : NewsList) :
    (idsOf (Aggregator.addNews s b)).Nodup := by
  have hD := nodup_idsOf_removeDuplicates (s ++ b)
  have hperm : List.Perm (idsOf ((Aggregator.removeDuplicates (s ++ b)).SortByDate))
      (idsOf (Aggregator.removeDuplicates (s ++ b))) :=
    (SortByDate_perm _).map News.id
  have hS : (idsOf ((Aggregator.removeDuplicates (s ++ b)).SortByDate)).Nodup :=
    hperm.nodup_iff.mpr hD
  rw [Aggregator.addNews]
  split
  · rw [idsOf, List.map_take]
    exact hS.sublist (List.take_sublist _ _)
  · exact hS

theorem mem_idsOf_addNews_iff_of_no_overflow (s b : NewsList)
    (h : (Aggregator.removeDuplicates (s ++ b)).length ≤ 1000) (x : String) :
    x ∈ idsOf (Aggregator.addNews s b) ↔ x ∈ idsOf (s ++ b) := by
  rw [addNews_of_no_overflow s b h]
  have h1 : x ∈ idsOf (Aggregator.removeDuplicates (s ++ b)).SortByDate ↔
      x ∈ idsOf (Aggregator.removeDuplicates (s ++ b)) :=
    ((SortByDate_perm _).map News.id).mem_iff
  rw [h1, mem_idsOf_removeDuplicates]

/-! ### The claims -/

/-- C1, amended. For `limit > 0` the aggregator read returns
`min(limit, len)` items (a limit exceeding the length returns the whole
list), and `limit = 0` returns an empty result — but a *negative* limit
does not return an empty result: it reaches the slice expression
`nl[:limit]` with a negative bound and panics (modelled as `none`). -/
theorem claim_C1 (nl : NewsList) (limit : Int) :
    (0 < limit → Aggregator.GetLatestNews nl limit = some (nl.take limit.toNat) ∧
      (nl.take limit.toNat).length = min limit.toNat nl.length) ∧
    (limit = 0 → Aggregator.GetLatestNews nl limit = some []) ∧
    (limit < 0 → Aggregator.GetLatestNews nl limit = none) ∧
    ((nl.length : Int) ≤ limit → Aggregator.GetLatestNews nl limit = some nl) := by
  unfold Aggregator.GetLatestNews NewsList.LimitTo
  refine ⟨?_, ?_, ?_, ?_⟩
  · intro hpos
    refine ⟨?_, List.length_take _ _⟩
    by_cases hle : (nl.length : Int) ≤ limit
    · rw [if_pos hle, List.take_of_length_le (by omega)]
    · rw [if_neg hle, if_neg (by omega)]
  · intro h0
    subst h0
    by_cases hle : (nl.length : Int) ≤ 0
    · have hnl : nl = [] := List.length_eq_zero.mp (by omega)
      rw [if_pos hle, hnl]
    · rw [if_neg hle, if_neg (by omega)]
      rfl
  · intro hneg
    rw [if_neg (by omega), if_pos hneg]
  · intro hle
    rw [if_pos hle]

/-- Witness for C1 at `limit = 1` on a two-element list. -/
theorem claim_C1_witness :
    Aggregator.GetLatestNews [cxItem 1 5, cxItem 2 3] 1 = some [cxItem 1 5] :=
  ((claim_C1 [cxItem 1 5, cxItem 2 3] 1).1 (by decide)).1

/-- Counterexample to C1 as stated: at `limit = -1` on a one-element list
the read panics (`none`) instead of returning an empty result. -/
theorem claim_C1_counterexample :
    Aggregator.GetLatestNews [cxY] (-1) = none ∧
      Aggregator.GetLatestNews [cxY] (-1) ≠ some [] := by
  exact ⟨by decide, by decide⟩

/-- C2. Starting from any state of at most 1000 items, the in-memory list
is at most 1000 items long after every merge of a sequence of batches. -/
theorem claim_C2 (init : NewsList) (batches : List NewsList)
    (hinit : init.length ≤ 1000) (k : Nat) :
    ((batches.take k).foldl Aggregator.addNews init).length ≤ 1000 :=
  foldl_addNews_length_le (batches.take k) init hinit

/-- Witness for C2: one concrete merge from the empty state. -/
theorem claim_C2_witness :
    (([[cxY]].take 1).foldl Aggregator.addNews []).length ≤ 1000 :=
  claim_C2 [] [[cxY]] (by decide) 1

/-- C3. After every merge the list is sorted by `published_at` descending:
adjacent items at positions `i` and `i+1` satisfy
`list[i].published_at ≥ list[i+1].published_at`. -/
theorem claim_C3 (s b : NewsList) (i : Nat) (x y : News)
    (hx : (Aggregator.addNews s b)[i]? = some x)
    (hy : (Aggregator.addNews s b)[i + 1]? = some y) :
    y.publishedAt ≤ x.publishedAt := by
  have hp := (List.pairwise_iff_getElem.mp (addNews_pairwise s b))
  obtain ⟨hi, hxe⟩ := List.getElem?_eq_some.mp hx
  obtain ⟨hj, hye⟩ := List.getElem?_eq_some.mp hy
  have := hp i (i + 1) hi hj (Nat.lt_succ_self i)
  rw [hxe, hye] at this
  exact this

/-- Witness for C3 on a concrete two-item merge. -/
theorem claim_C3_witness :
    (cxItem 1 5).publishedAt ≤ (cxItem 2 7).publishedAt :=
  claim_C3 [cxItem 1 5] [cxItem 2 7] 0 (cxItem 2 7) (cxItem 1 5)
    (by decide) (by decide)

theorem fileCache_get1000_length (file : Option NewsList) (r : NewsList)
    (h : FileCache.GetLatestNews file 1000 = some r) : r.length ≤ 1000 := by
  match file with
  | none =>
    unfold FileCache.GetLatestNews at h
    injection h with h
    subst h
    simp
  | some l =>
    have h2 : l.LimitTo 1000 = some r := h
    unfold NewsList.LimitTo at h2
    by_cases hle : (l.length : Int) ≤ 1000
    · rw [if_pos hle] at h2
      injection h2 with h2
      subst h2
      omega
    · rw [if_neg hle, if_neg (by omega)] at h2
      injection h2 with h2
      subst h2
      rw [List.length_take]
      omega

theorem reachable_invariant (s : NewsList) (h : Aggregator.Reachable s) :
    s.Pairwise byDateDesc ∧ s.length ≤ 1000 := by
  induction h with
  | start => exact ⟨List.Pairwise.nil, by simp⟩
  | merge b _ _ => exact ⟨addNews_pairwise _ _, addNews_length_le _ _⟩
  | load hl =>
    next file s =>
    unfold Aggregator.LoadFromRepository at hl
    obtain ⟨r, hr, hs⟩ := Option.map_eq_some'.mp hl
    refine ⟨hs ▸ SortByDate_pairwise r, hs ▸ ?_⟩
    rw [SortByDate_length]
    exact fileCache_get1000_length file r hr

/-- C5. For every state the aggregator can be in, saving to the repository
and then loading on a fresh aggregator over the same repository
reconstructs exactly the saved list (hence the same ids in the same sort
order). -/
theorem claim_C5 (state : NewsList) (h : Aggregator.Reachable state) :
    Aggregator.LoadFromRepository (Aggregator.SaveToRepository state) = some state := by
  obtain ⟨hsort, hlen⟩ := reachable_invariant state h
  show (state.LimitTo 1000).map NewsList.SortByDate = some state
  unfold NewsList.LimitTo
  rw [if_pos (show (state.length : Int) ≤ 1000 by omega)]
  simp [SortByDate_of_pairwise state hsort]

/-- Witness for C5 at the initial (empty) aggregator state. -/
theorem claim_C5_witness :
    Aggregator.LoadFromRepository (Aggregator.SaveToRepository []) = some [] :=
  claim_C5 [] Aggregator.Reachable.start

theorem cache_key100_invalidated (st : CachedState) (l : NewsList) :
    (CachedNewsRepository.SaveNews st l).cache (NewsCacheKey 100) = none := by
  show ([NewsCacheKey 10, NewsCacheKey 50, NewsCacheKey 100, NewsCacheKey 500,
      NewsCacheKey 1000].foldl CacheMap.del st.cache) (NewsCacheKey 100) = none
  simp only [List.foldl_cons, List.foldl_nil, CacheMap.del]
  simp

theorem cachedGet_miss (st : CachedState) (limit : Int)
    (hm : st.cache (NewsCacheKey limit) = none) :
    CachedNewsRepository.GetLatestNews st limit =
      (FileCache.GetLatestNews st.repoFile limit).map fun news =>
        (news, { st with cache := st.cache.set (NewsCacheKey limit) news }) := by
  show (match st.cache (NewsCacheKey limit) with
    | some cached => some (cached, st)
    | none =>
      (FileCache.GetLatestNews st.repoFile limit).map fun news =>
        (news, { st with cache := st.cache.set (NewsCacheKey limit) news })) = _
  rw [hm]

/-- C6. After a successful `SaveNews(list)` through the cache-aside layer
(write-through first, then invalidation of the keys for limits
10/50/100/500/1000), a subsequent `GetLatestNews(100)` returns `list`
truncated to 100 items — never a stale cached value, whatever the cache
held before. -/
theorem claim_C6 (st : CachedState) (l : NewsList) :
    (CachedNewsRepository.GetLatestNews (CachedNewsRepository.SaveNews st l) 100).map
      Prod.fst = some (l.take 100) := by
  rw [cachedGet_miss _ 100 (cache_key100_invalidated st l)]
  have hrepo : (CachedNewsRepository.SaveNews st l).repoFile = some l := rfl
  rw [hrepo]
  have hfile : FileCache.GetLatestNews (some l) 100 = l.LimitTo 100 := rfl
  rw [hfile]
  unfold NewsList.LimitTo
  by_cases hle : (l.length : Int) ≤ 100
  · rw [if_pos hle]
    simp [List.take_of_length_le (show l.length ≤ 100 by omega)]
  · rw [if_neg hle, if_neg (by omega)]
    simp

/-- C8, amended. A missing backing file yields an empty list and no error
for *every* limit; an existing file is decoded and truncated to `n` for
every `n ≥ 0` — but for `n < 0` the truncation slice panics instead of
returning a list. -/
theorem claim_C8 (n : Int) (l : NewsList) :
    (FileCache.GetLatestNews none n = some []) ∧
    (0 ≤ n → FileCache.GetLatestNews (some l) n = some (l.take n.toNat)) ∧
    (n < 0 → FileCache.GetLatestNews (some l) n = none) := by
  refine ⟨rfl, ?_, ?_⟩
  · intro hn
    show l.LimitTo n = some (l.take n.toNat)
    unfold NewsList.LimitTo
    by_cases hle : (l.length : Int) ≤ n
    · rw [if_pos hle, List.take_of_length_le (by omega)]
    · rw [if_neg hle, if_neg (by omega)]
  · intro hn
    show l.LimitTo n = none
    unfold NewsList.LimitTo
    rw [if_neg (show ¬ (l.length : Int) ≤ n by omega), if_pos hn]

/-- Witness for C8 at `n = 2` on a one-element file. -/
theorem claim_C8_witness :
    FileCache.GetLatestNews (some [cxY]) 2 = some [cxY] :=
  (claim_C8 2 [cxY]).2.1 (by decide)

/-- Counterexample to C8 as stated: with an existing one-element file and
`n = -1`, the read panics (`none`) instead of returning a truncated
list. -/
theorem claim_C8_counterexample :
    FileCache.GetLatestNews (some [cxY]) (-1) = none ∧
      ∀ r : NewsList, FileCache.GetLatestNews (some [cxY]) (-1) ≠ some r := by
  have h : FileCache.GetLatestNews (some [cxY]) (-1) = none := by decide
  exact ⟨h, fun r hr => by rw [h] at hr; exact Option.noConfusion hr⟩

/-- C10. The news handler only ever calls the provider with a limit in
`[1, 1000]` (100 by default); any present-but-invalid limit parameter is
answered with status 400 before the provider is consulted, so the public
API never reaches the negative-limit (panicking) branch of the read
path. -/
theorem claim_C10 (p : Handlers.LimitParam) :
    (∀ v, Handlers.GetNews p = .respond v → 1 ≤ v ∧ v ≤ 1000) ∧
    (Handlers.GetNews .absent = .respond 100) ∧
    (∀ parsed : Option Int,
      (∀ v, parsed = some v → ¬(1 ≤ v ∧ v ≤ 1000)) →
      Handlers.GetNews (.present parsed) =
        .badRequest "Invalid limit parameter. Must be between 1 and 1000" 400) ∧
    (∀ v, Handlers.GetNews p = .respond v →
      ∀ nl : NewsList, Aggregator.GetLatestNews nl v ≠ none) := by
  have hbound : ∀ v, Handlers.GetNews p = .respond v → 1 ≤ v ∧ v ≤ 1000 := by
    intro v hv
    match p with
    | .absent =>
      injection hv with h
      subst h
      exact ⟨by norm_num, by norm_num⟩
    | .present (some w) =>
      by_cases hw : 0 < w ∧ w ≤ 1000
      · have he : Handlers.GetNews (.present (some w)) = .respond w := by
          show (if 0 < w ∧ w ≤ 1000 then Handlers.GetNewsOutcome.respond w else _) = _
          rw [if_pos hw]
        rw [he] at hv
        injection hv with h
        subst h
        omega
      · have he : Handlers.GetNews (.present (some w)) =
            .badRequest "Invalid limit parameter. Must be between 1 and 1000" 400 := by
          show (if 0 < w ∧ w ≤ 1000 then _ else _) = _
          rw [if_neg hw]
        rw [he] at hv
        exact Handlers.GetNewsOutcome.noConfusion hv
    | .present none =>
      exact Handlers.GetNewsOutcome.noConfusion hv
  refine ⟨hbound, rfl, ?_, ?_⟩
  · intro parsed hbad
    match parsed with
    | none => rfl
    | some v =>
      have hv := hbad v rfl
      show (if 0 < v ∧ v ≤ 1000 then _ else _) = _
      rw [if_neg (by omega)]
  · intro v hv nl
    obtain ⟨h1, _⟩ := hbound v hv
    unfold Aggregator.GetLatestNews NewsList.LimitTo
    by_cases hle : (nl.length : Int) ≤ v
    · rw [if_pos hle]
      exact Option.noConfusion
    · rw [if_neg hle, if_neg (by omega)]
      exact Option.noConfusion

/-- Witness for C10: a valid parsed limit of 5 yields a call bounded by
`[1, 1000]`. -/
theorem claim_C10_witness : (1 : Int) ≤ 5 ∧ (5 : Int) ≤ 1000 :=
  (claim_C10 (.present (some 5))).1 5 (by decide)

/-- C7, amended. Per-source collection reports an error exactly for a
transport-level failure, a status other than 200 (the code compares
against 200 only, so it also rejects the other 2xx statuses), or a body
that fails to decode; a 200 response with a well-formed body always
succeeds; and every error is wrapped with the source name when sent to
the error channel. -/
theorem claim_C7 (parse : String → Option Int) (src : Source) (now : Int) :
    (∀ msg, Collector.CollectFromSource parse src now (.transportError msg) =
      .error msg) ∧
    (∀ status body, status ≠ 200 →
      Collector.CollectFromSource parse src now (.response status body) =
        .error ("HTTP " ++ toString status ++ " from " ++ src.url)) ∧
    (∀ msg, Collector.CollectFromSource parse src now
      (.response 200 (.malformed msg)) = .error msg) ∧
    (∀ articles, Collector.CollectFromSource parse src now
      (.response 200 (.decoded articles)) =
        .ok (Collector.buildNews parse src now articles)) ∧
    (∀ r e, Collector.CollectFromSource parse src now r = .error e →
      Collector.sourceTask parse src now r =
        .sentError ("error collecting from " ++ src.name ++ ": " ++ e)) := by
  refine ⟨fun msg => rfl, ?_, fun msg => rfl, fun articles => rfl, ?_⟩
  · intro status body hst
    show (if status ≠ 200 then _ else _) = _
    rw [if_pos hst]
  · intro r e he
    unfold Collector.sourceTask
    rw [he]

/-- Witness for C7: a 500 response is reported as an HTTP-status error. -/
theorem claim_C7_witness :
    Collector.CollectFromSource (fun _ => none) cxSrc 0 (.response 500 (.decoded [])) =
      .error ("HTTP " ++ toString 500 ++ " from " ++ cxSrc.url) :=
  (claim_C7 (fun _ => none) cxSrc 0).2.1 500 (.decoded []) (by decide)

/-- Counterexample to C7 as stated: a 201 response — a 2xx status — with a
well-formed body is rejected with an HTTP-status error instead of
succeeding. -/
theorem claim_C7_counterexample :
    ((200 : Nat) ≤ 201 ∧ (201 : Nat) < 300) ∧
    Collector.CollectFromSource (fun _ => none) cxSrc 0
        (.response 201 (.decoded [cxArticle])) =
      .error ("HTTP 201 from " ++ cxSrc.url) ∧
    ∀ news, Collector.CollectFromSource (fun _ => none) cxSrc 0
        (.response 201 (.decoded [cxArticle])) ≠ .ok news := by
  have he : Collector.CollectFromSource (fun _ => none) cxSrc 0
      (.response 201 (.decoded [cxArticle])) =
        .error ("HTTP 201 from " ++ cxSrc.url) := rfl
  exact ⟨by decide, he, fun news h => by rw [he] at h; exact Except.noConfusion h⟩

/-- C9. The item built from the article at in-batch index `i` carries the
synthesized id `name_unixtime_index`, and its `published_at` is the
RFC3339-parsed timestamp of the article, defaulting to the collection
time when parsing fails. -/
theorem claim_C9 (parse : String → Option Int) (src : Source) (now : Int)
    (articles : List Article) (i : Nat) (a : Article)
    (ha : articles[i]? = some a) :
    (Collector.buildNews parse src now articles)[i]? = some
      { id := src.name ++ "_" ++ toString now ++ "_" ++ toString i
        title := a.title
        description := a.description
        url := a.url
        source := src.name
        publishedAt := (parse a.publishedAt).getD now } := by
  unfold Collector.buildNews
  rw [List.getElem?_map, List.getElem?_enum, ha]
  rfl

/-- Witness for C9 on a concrete article with a parsable timestamp. -/
theorem claim_C9_witness :
    (Collector.buildNews (fun _ => some 3) cxSrc 7 [cxArticle])[0]? = some
      { id := "TechNews_7_0", title := "t", description := "d"
        url := "http://example.com/a", source := "TechNews", publishedAt := 3 } :=
  claim_C9 (fun _ => some 3) cxSrc 7 [cxArticle] 0 cxArticle (by decide)

/-- C4, amended. Merging the same batch twice yields the same set of ids
as merging it once *provided the first merge does not overflow the
1000-item cap* (i.e. the deduplicated combined list has at most 1000
items — the counterexample shows the cap makes the unrestricted statement
false); unconditionally, after any merge no two items share an id, and
duplicate ids (including within one batch) are resolved by keeping
exactly the first occurrence in list order. -/
theorem claim_C4 (s b : NewsList) :
    ((Aggregator.removeDuplicates (s ++ b)).length ≤ 1000 →
      ∀ x, x ∈ idsOf (Aggregator.addNews (Aggregator.addNews s b) b) ↔
        x ∈ idsOf (Aggregator.addNews s b)) ∧
    (idsOf (Aggregator.addNews s b)).Nodup ∧
    (∀ l : NewsList, Aggregator.removeDuplicates l = firstOccurrences l) := by
  refine ⟨?_, nodup_idsOf_addNews s b, removeDuplicates_eq_firstOccurrences⟩
  intro h x
  have hndL : (idsOf (Aggregator.addNews s b)).Nodup := nodup_idsOf_addNews s b
  have hLlen : (Aggregator.addNews s b).length ≤ 1000 := addNews_length_le s b
  have hsub : ∀ y ∈ b, y.id ∈ idsOf (Aggregator.addNews s b) := by
    intro y hy
    rw [mem_idsOf_addNews_iff_of_no_overflow s b h, idsOf_append]
    exact List.mem_append_right _ (List.mem_map_of_mem News.id hy)
  have hdedup2 : Aggregator.removeDuplicates (Aggregator.addNews s b ++ b) =
      Aggregator.addNews s b :=
    removeDuplicates_append_of_subset _ b hndL hsub
  have h2 : (Aggregator.removeDuplicates (Aggregator.addNews s b ++ b)).length ≤ 1000 := by
    rw [hdedup2]
    exact hLlen
  rw [mem_idsOf_addNews_iff_of_no_overflow _ b h2, idsOf_append, List.mem_append]
  constructor
  · rintro (hx | hx)
    · exact hx
    · obtain ⟨y, hy, hxy⟩ := List.mem_map.mp hx
      exact hxy ▸ hsub y hy
  · exact Or.inl

/-- Witness for C4 at a tiny non-overflowing merge. -/
theorem claim_C4_witness :
    ∀ x, x ∈ idsOf (Aggregator.addNews (Aggregator.addNews [] [cxY]) [cxY]) ↔
      x ∈ idsOf (Aggregator.addNews [] [cxY]) :=
  (claim_C4 [] [cxY]).1 (by decide)

theorem mkId_inj (a b : Nat) (h : mkId a = mkId b) : a = b := by
  unfold mkId at h
  have h2 : List.replicate a 'a' = List.replicate b 'a' := by
    injection h
  have h3 := congrArg List.length h2
  simpa using h3

theorem idsOf_cxS : idsOf cxS = mkId 0 :: ((List.range 999).map fun i => mkId (i + 1)) := by
  simp only [cxS, idsOf, List.map_cons, List.map_map]
  rfl

theorem cx_nats_nodup : (0 :: (((List.range 999).map fun i => i + 1) ++ [1001])).Nodup := by
  refine List.nodup_cons.mpr ⟨?_, ?_⟩
  · intro h
    rcases List.mem_append.mp h with h1 | h1
    · obtain ⟨i, _, hi⟩ := List.mem_map.mp h1
      omega
    · simp at h1
  · refine List.Nodup.append ?_ (List.nodup_singleton _) ?_
    · exact (List.nodup_range 999).map fun a b h => by omega
    · intro a ha hb
      obtain ⟨i, hi, rfl⟩ := List.mem_map.mp ha
      rw [List.mem_singleton] at hb
      rw [List.mem_range] at hi
      omega

theorem cx_idsSF_nodup : (idsOf (cxS ++ [cxF])).Nodup := by
  rw [idsOf_append, idsOf_cxS]
  have hF : idsOf [cxF] = [mkId 1001] := rfl
  rw [hF]
  have he : (mkId 0 :: ((List.range 999).map fun i => mkId (i + 1))) ++ [mkId 1001] =
      (0 :: (((List.range 999).map fun i => i + 1) ++ [1001])).map mkId := by
    simp [List.map_map]
  rw [he]
  exact cx_nats_nodup.map fun a b h => mkId_inj a b h

theorem cxSF_length : (cxS ++ [cxF]).length = 1001 := by
  simp [cxS]

theorem cx_dedup1 : Aggregator.removeDuplicates (cxS ++ cxB) = cxS ++ [cxF] := by
  have h1 : cxS ++ cxB = (cxS ++ [cxF]) ++ [cxE] := by simp [cxB]
  rw [h1]
  apply removeDuplicates_append_of_subset _ _ cx_idsSF_nodup
  intro x hx
  rw [List.mem_singleton] at hx
  subst hx
  rw [idsOf_append, idsOf_cxS]
  exact List.mem_append_left _ (List.mem_cons_self _ _)

theorem cx_L_eq : Aggregator.addNews cxS cxB = ((cxS ++ [cxF]).SortByDate).take 1000 := by
  rw [addNews_of_overflow _ _ (by rw [cx_dedup1, cxSF_length]; omega), cx_dedup1]

theorem cx_L_length : (Aggregator.addNews cxS cxB).length = 1000 := by
  rw [cx_L_eq, List.length_take, SortByDate_length, cxSF_length]
  omega

theorem cxY_not_mem_L : cxY ∉ Aggregator.addNews cxS cxB := by
  rw [cx_L_eq]
  apply not_mem_take_of_le_countP _ (SortByDate_pairwise _) _ 1000
  rw [((SortByDate_perm (cxS ++ [cxF])).countP_eq _), List.countP_append]
  have hc1 : cxS.countP (fun x => decide (cxY.publishedAt < x.publishedAt)) = 999 := by
    rw [cxS, List.countP_cons]
    have hY : (decide (cxY.publishedAt < cxY.publishedAt)) = false := by decide
    rw [hY]
    simp only [List.countP_map]
    rw [List.countP_eq_length.mpr]
    · simp
    · intro i _
      rfl
  have hc2 : List.countP (fun x => decide (cxY.publishedAt < x.publishedAt)) [cxF] = 1 := by
    decide
  omega

theorem cx_id0_unique (z : News) (hz : z ∈ cxS ++ [cxF]) (hid : z.id = mkId 0) :
    z = cxY := by
  rcases List.mem_append.mp hz with hz1 | hz1
  · rw [cxS] at hz1
    rcases List.mem_cons.mp hz1 with h1 | hz2
    · exact h1
    · obtain ⟨i, _, rfl⟩ := List.mem_map.mp hz2
      exact absurd (mkId_inj _ _ hid) (by omega)
  · rw [List.mem_singleton] at hz1
    subst hz1
    exact absurd (mkId_inj _ _ hid) (by omega)

theorem cx_id0_not_in_L : mkId 0 ∉ idsOf (Aggregator.addNews cxS cxB) := by
  intro hmem
  obtain ⟨z, hzL, hzid⟩ := List.mem_map.mp hmem
  have hzSF : z ∈ cxS ++ [cxF] := by
    have h1 : z ∈ ((cxS ++ [cxF]).SortByDate).take 1000 := by
      rw [← cx_L_eq]
      exact hzL
    exact (SortByDate_perm _).mem_iff.mp (List.take_subset _ _ h1)
  have hzY := cx_id0_unique z hzSF hzid
  subst hzY
  exact cxY_not_mem_L hzL

theorem cxF_mem_L : cxF ∈ Aggregator.addNews cxS cxB := by
  rw [cx_L_eq]
  apply mem_take_of_countP_le _ (SortByDate_pairwise _)
  · exact (SortByDate_perm _).mem_iff.mpr
      (List.mem_append_right _ (List.mem_singleton_self _))
  · rw [((SortByDate_perm (cxS ++ [cxF])).countP_eq _), List.countP_append]
    have hc1 : cxS.countP (fun x => decide (cxF.publishedAt ≤ x.publishedAt)) = 0 := by
      apply List.countP_eq_zero.mpr
      intro x hx
      rw [cxS] at hx
      rcases List.mem_cons.mp hx with h1 | hx2
      · subst h1
        decide
      · obtain ⟨i, _, rfl⟩ := List.mem_map.mp hx2
        exact fun hc => Bool.noConfusion hc
    have hc2 : List.countP (fun x => decide (cxF.publishedAt ≤ x.publishedAt)) [cxF] = 1 := by
      decide
    omega

theorem removeDuplicates_append_pair (L : NewsList) (f e : News)
    (hnd : (idsOf L).Nodup) (hf : f.id ∈ idsOf L) (he : e.id ∉ idsOf L) :
    Aggregator.removeDuplicates (L ++ [f, e]) = L ++ [e] := by
  rw [Aggregator.removeDuplicates, removeDupsAux_append,
    removeDupsAux_of_nodup [] L (fun x _ => List.not_mem_nil x.id) hnd]
  congr 1
  have hf2 : f.id ∈ idsOf L ++ ([] : List String) := List.mem_append.mpr (Or.inl hf)
  have he2 : e.id ∉ idsOf L ++ ([] : List String) := by
    rw [List.append_nil]
    exact he
  rw [Aggregator.removeDupsAux, if_pos hf2, Aggregator.removeDupsAux, if_neg he2,
    Aggregator.removeDupsAux]

theorem cx_dedup2 : Aggregator.removeDuplicates (Aggregator.addNews cxS cxB ++ cxB) =
    Aggregator.addNews cxS cxB ++ [cxE] :=
  removeDuplicates_append_pair (Aggregator.addNews cxS cxB) cxF cxE
    (nodup_idsOf_addNews cxS cxB)
    (List.mem_map_of_mem News.id cxF_mem_L)
    cx_id0_not_in_L

theorem cx_final_eq : Aggregator.addNews (Aggregator.addNews cxS cxB) cxB =
    ((Aggregator.addNews cxS cxB ++ [cxE]).SortByDate).take 1000 := by
  have hlen : (Aggregator.removeDuplicates
      (Aggregator.addNews cxS cxB ++ cxB)).length = 1001 := by
    rw [cx_dedup2, List.length_append, cx_L_length]
    rfl
  rw [addNews_of_overflow _ _ (by rw [hlen]; omega), cx_dedup2]

theorem cxE_mem_final :
    cxE ∈ Aggregator.addNews (Aggregator.addNews cxS cxB) cxB := by
  rw [cx_final_eq]
  apply mem_take_of_countP_le _ (SortByDate_pairwise _)
  · exact (SortByDate_perm _).mem_iff.mpr
      (List.mem_append_right _ (List.mem_singleton_self _))
  · rw [((SortByDate_perm (Aggregator.addNews cxS cxB ++ [cxE])).countP_eq _),
      List.countP_append]
    have hL : (Aggregator.addNews cxS cxB).countP
        (fun x => decide (cxE.publishedAt ≤ x.publishedAt)) ≤ 1 := by
      rw [cx_L_eq]
      have h1 := (List.take_sublist 1000 ((cxS ++ [cxF]).SortByDate)).countP_le
        (fun x => decide (cxE.publishedAt ≤ x.publishedAt))
      have h2 : ((cxS ++ [cxF]).SortByDate).countP
          (fun x => decide (cxE.publishedAt ≤ x.publishedAt)) = 1 := by
        rw [((SortByDate_perm (cxS ++ [cxF])).countP_eq _), List.countP_append]
        have hc1 : cxS.countP (fun x => decide (cxE.publishedAt ≤ x.publishedAt)) = 0 := by
          apply List.countP_eq_zero.mpr
          intro x hx
          rw [cxS] at hx
          rcases List.mem_cons.mp hx with h1 | hx2
          · subst h1
            decide
          · obtain ⟨i, _, rfl⟩ := List.mem_map.mp hx2
            exact fun hc => Bool.noConfusion hc
        have hc2 : List.countP (fun x => decide (cxE.publishedAt ≤ x.publishedAt)) [cxF] = 1 := by
          decide
        omega
      omega
    have hE1 : List.countP (fun x => decide (cxE.publishedAt ≤ x.publishedAt)) [cxE] = 1 := by
      decide
    omega

/-- Counterexample to C4 as stated: with the full 1000-item state `cxS`
whose oldest entry's id reappears in the batch `cxB` alongside one
genuinely new item, merging the batch once drops that id at the cap,
while merging the same batch a second time brings it back — so the two
merges do not yield the same set of ids. -/
theorem claim_C4_counterexample :
    ¬ ∀ x, x ∈ idsOf (Aggregator.addNews (Aggregator.addNews cxS cxB) cxB) ↔
      x ∈ idsOf (Aggregator.addNews cxS cxB) := by
  intro hall
  apply cx_id0_not_in_L
  apply (hall (mkId 0)).mp
  exact List.mem_map_of_mem News.id cxE_mem_final

end Infohub
